/-
Verification of the TileDB VFS layer (tiledb/sm/filesystem/vfs.cc) and of the
subarray partitioner contract (tiledb/sm/subarray/subarray_partitioner.h),
against the repository's natural-language specification.

The VFS functions (`compute_read_batches`, `read_all`, `read` chunking,
`filelock_lock` / `filelock_unlock` / `decr_lock_count`) are shallowly
embedded from the C++ source, with `uint64_t` arithmetic made explicit
(`% 2^64`).  The subarray partitioner implementation is not part of the
sources (only its header is), so its state machine is modelled from the
specification text, as marked on each such definition.
-/
import Mathlib

namespace TileDBProof

/-! ## uint64 arithmetic

All the VFS quantities are C++ `uint64_t`.  We represent them as `Nat`
and make wraparound explicit where the code may overflow or underflow. -/

/-- `2^64`, the modulus of C++ `uint64_t` arithmetic. -/
def U64 : Nat := 2 ^ 64

/-- `uint64_t` addition: `(a + b) % 2^64`. -/
def add64 (a b : Nat) : Nat := (a + b) % U64

/-- `uint64_t` subtraction (wrapping): `(a - b) % 2^64`. -/
def sub64 (a b : Nat) : Nat := (a + (U64 - b % U64)) % U64

/-- `uint64_t` multiplication: `(a * b) % 2^64`. -/
def mul64 (a b : Nat) : Nat := (a * b) % U64

theorem U64_pos : 0 < U64 := by decide

theorem add64_eq_of_lt {a b : Nat} (h : a + b < U64) : add64 a b = a + b := by
  simpa [add64] using Nat.mod_eq_of_lt h

theorem sub64_eq_of_le {a b : Nat} (hba : b ≤ a) (ha : a < U64) :
    sub64 a b = a - b := by
  have hb : b < U64 := lt_of_le_of_lt hba ha
  have hbmod : b % U64 = b := Nat.mod_eq_of_lt hb
  have h1 : a + (U64 - b) = (a - b) + U64 := by omega
  have h2 : a - b < U64 := lt_of_le_of_lt (Nat.sub_le _ _) ha
  calc sub64 a b = (a + (U64 - b)) % U64 := by rw [sub64, hbmod]
    _ = ((a - b) + U64) % U64 := by rw [h1]
    _ = (a - b) % U64 := Nat.add_mod_right _ _
    _ = a - b := Nat.mod_eq_of_lt h2

/-! ## VFS read batching (`VFS::compute_read_batches`, vfs.cc:912-956)

A region is a `(offset, dest, nbytes)` tuple; the destination pointer is
abstracted to a `Nat` identifier (the code never inspects it, it only
carries it through to the final `memcpy`). -/

/-- One `(offset, dest, nbytes)` read region, as in
`std::tuple<uint64_t, void*, uint64_t>` (vfs.cc:867). -/
structure Region where
  offset : Nat
  dest : Nat
  nbytes : Nat
  deriving Repr, DecidableEq

/-- `VFS::BatchedRead` (declared in vfs.h, used in vfs.cc:880-956): a batch
has a starting `offset`, a total byte count `nbytes`, and the list of
regions it serves.  Its constructor from a single region sets
`offset = region.offset`, `nbytes = region.nbytes`, `regions = {region}`,
exactly as the loop at vfs.cc:927 and 944-947 requires. -/
structure BatchedRead where
  offset : Nat
  nbytes : Nat
  regions : List Region
  deriving Repr, DecidableEq

/-- The VFS configuration parameters that the batching and chunking code
reads (`vfs_params_`), all `uint64_t`. -/
structure VfsParams where
  min_batch_size_ : Nat
  min_batch_gap_ : Nat
  min_parallel_size_ : Nat
  max_parallel_ops_ : Nat
  deriving Repr, DecidableEq

/-- The comparison used to sort regions (vfs.cc:918-924 sorts by
`std::get<0>`, the offset); we use the reflexive closure so that the sort
relation is total. -/
def regLE (a b : Region) : Prop := a.offset ≤ b.offset

instance : DecidableRel regLE := fun a b => by
  unfold regLE; infer_instance

instance : IsTotal Region regLE :=
  ⟨fun a b => Nat.le_total a.offset b.offset⟩

instance : IsTrans Region regLE :=
  ⟨fun _ _ _ h1 h2 => Nat.le_trans h1 h2⟩

/-- The sorted copy of the input regions (vfs.cc:916-924). -/
def sortRegions (regions : List Region) : List Region :=
  List.insertionSort regLE regions

/-- The merge test of the batching loop (vfs.cc:933-936):
`new_batch_size = (offset + nbytes) - curr_batch.offset` and
`gap = offset - (curr_batch.offset + curr_batch.nbytes)`, both in
`uint64_t` arithmetic; merge iff `new_batch_size <= min_batch_size_`
or `gap <= min_batch_gap_`. -/
def mergeCond (p : VfsParams) (b : BatchedRead) (r : Region) : Bool :=
  let new_batch_size := sub64 (add64 r.offset r.nbytes) b.offset
  let gap := sub64 r.offset (add64 b.offset b.nbytes)
  decide (new_batch_size ≤ p.min_batch_size_) || decide (gap ≤ p.min_batch_gap_)

/-- The loop body of `compute_read_batches` (vfs.cc:929-953), operating on
the already-sorted tail: extend the current batch, or emit it and start a
new batch at the region. -/
def batchLoop (p : VfsParams) (b : BatchedRead) : List Region → List BatchedRead
  | [] => [b]
  | r :: rs =>
    if mergeCond p b r then
      batchLoop p
        { offset := b.offset,
          nbytes := sub64 (add64 r.offset r.nbytes) b.offset,
          regions := b.regions ++ [r] } rs
    else
      b :: batchLoop p { offset := r.offset, nbytes := r.nbytes, regions := [r] } rs

/-- `VFS::compute_read_batches` (vfs.cc:912-956).  The C++ function
dereferences `sorted_regions.front()` and is only ever called on a
non-empty list (vfs.cc:876-881); on the empty list we return `[]`. -/
def compute_read_batches (p : VfsParams) (regions : List Region) : List BatchedRead :=
  match sortRegions regions with
  | [] => []
  | r :: rs => batchLoop p { offset := r.offset, nbytes := r.nbytes, regions := [r] } rs

/-- Concatenation of the regions of a list of batches. -/
def batchesRegions (bs : List BatchedRead) : List Region :=
  bs.foldr (fun b acc => b.regions ++ acc) []

theorem batchesRegions_cons (b : BatchedRead) (bs : List BatchedRead) :
    batchesRegions (b :: bs) = b.regions ++ batchesRegions bs := rfl

/-- Every region of the sorted tail ends up in exactly one batch, in order:
the concatenation of the batches' region lists is the current batch's
regions followed by the remaining input. -/
theorem batchLoop_regions (p : VfsParams) :
    ∀ (rs : List Region) (b : BatchedRead),
      batchesRegions (batchLoop p b rs) = b.regions ++ rs := by
  intro rs
  induction rs with
  | nil => intro b; simp [batchLoop, batchesRegions]
  | cons r rs ih =>
    intro b
    by_cases h : mergeCond p b r
    · have hstep : batchLoop p b (r :: rs) =
          batchLoop p
            { offset := b.offset,
              nbytes := sub64 (add64 r.offset r.nbytes) b.offset,
              regions := b.regions ++ [r] } rs := by
        simp [batchLoop, h]
      rw [hstep, ih]; simp
    · have hstep : batchLoop p b (r :: rs) =
          b :: batchLoop p { offset := r.offset, nbytes := r.nbytes, regions := [r] } rs := by
        simp [batchLoop, h]
      rw [hstep, batchesRegions_cons, ih]; simp

/-! ### Claim-side reference for the batching policy (C3)

`specGo`/`specReadBatches` are written from the specification sentence:
regions are first ordered by offset; each successive region is merged into
the current batch iff the merged span (the region's end minus the batch's
offset) is at most `min_batch_size` or the gap between the batch's end and
the region's offset is at most `min_batch_gap`; otherwise the current
batch is emitted and a new batch starts at that region.  All quantities
are `uint64_t`, so the two subtractions are mod-`2^64`. -/

/-- Emission-accumulator form of the specification's batching policy. -/
def specGo (p : VfsParams) (acc : List BatchedRead) (b : BatchedRead) :
    List Region → List BatchedRead
  | [] => acc ++ [b]
  | r :: rs =>
    let span := sub64 (add64 r.offset r.nbytes) b.offset
    let gap := sub64 r.offset (add64 b.offset b.nbytes)
    if span ≤ p.min_batch_size_ ∨ gap ≤ p.min_batch_gap_ then
      specGo p acc { offset := b.offset, nbytes := span, regions := b.regions ++ [r] } rs
    else
      specGo p (acc ++ [b]) { offset := r.offset, nbytes := r.nbytes, regions := [r] } rs

/-- The batching policy as the specification states it: sort by offset,
then coalesce with the merge rule above. -/
def specReadBatches (p : VfsParams) (regions : List Region) : List BatchedRead :=
  match sortRegions regions with
  | [] => []
  | r :: rs => specGo p [] { offset := r.offset, nbytes := r.nbytes, regions := [r] } rs

theorem specGo_eq_batchLoop (p : VfsParams) :
    ∀ (rs : List Region) (acc : List BatchedRead) (b : BatchedRead),
      specGo p acc b rs = acc ++ batchLoop p b rs := by
  intro rs
  induction rs with
  | nil => intro acc b; simp [specGo, batchLoop]
  | cons r rs ih =>
    intro acc b
    by_cases h : mergeCond p b r
    · have h' : sub64 (add64 r.offset r.nbytes) b.offset ≤ p.min_batch_size_ ∨
          sub64 r.offset (add64 b.offset b.nbytes) ≤ p.min_batch_gap_ := by
        simpa [mergeCond] using h
      simp only [specGo, batchLoop]
      rw [if_pos h', if_pos h, ih]
    · have h' : ¬(sub64 (add64 r.offset r.nbytes) b.offset ≤ p.min_batch_size_ ∨
          sub64 r.offset (add64 b.offset b.nbytes) ≤ p.min_batch_gap_) := by
        simpa [mergeCond] using h
      simp only [specGo, batchLoop]
      rw [if_neg h', if_neg h, ih]
      simp

/-! ### Structure of the computed batches -/

/-- A region of a batch produced by `batchLoop` is one of the regions fed
into the loop. -/
theorem mem_batchesRegions_of_mem (bs : List BatchedRead) (b : BatchedRead)
    (hb : b ∈ bs) (r : Region) (hr : r ∈ b.regions) : r ∈ batchesRegions bs := by
  induction bs with
  | nil => cases hb
  | cons b' bs ih =>
    rw [batchesRegions_cons]
    rcases List.mem_cons.mp hb with h | h
    · exact List.mem_append.mpr (Or.inl (h ▸ hr))
    · exact List.mem_append.mpr (Or.inr (ih h))

/-- In every batch produced by `batchLoop`, each region starts at or after
the batch's offset (the batch offset is the smallest offset of its sorted
regions). -/
theorem batchLoop_offset_le (p : VfsParams) :
    ∀ (rs : List Region) (b : BatchedRead),
      (∀ r ∈ b.regions, b.offset ≤ r.offset) →
      (∀ r ∈ rs, b.offset ≤ r.offset) →
      List.Pairwise regLE rs →
      ∀ batch ∈ batchLoop p b rs, ∀ r ∈ batch.regions, batch.offset ≤ r.offset := by
  intro rs
  induction rs with
  | nil =>
    intro b hb _ _ batch hbatch r hr
    rw [batchLoop] at hbatch
    rcases List.mem_singleton.mp hbatch with rfl
    exact hb r hr
  | cons r rs ih =>
    intro b hb hrs hpw batch hbatch rr hrr
    have hpw' := List.Pairwise.of_cons hpw
    have hhead : ∀ r' ∈ rs, r.offset ≤ r'.offset :=
      fun r' h' => List.rel_of_pairwise_cons hpw h'
    by_cases h : mergeCond p b r
    · have hstep : batchLoop p b (r :: rs) =
          batchLoop p
            { offset := b.offset,
              nbytes := sub64 (add64 r.offset r.nbytes) b.offset,
              regions := b.regions ++ [r] } rs := by
        simp [batchLoop, h]
      rw [hstep] at hbatch
      refine ih _ ?_ ?_ hpw' batch hbatch rr hrr
      · intro r' h'
        rcases List.mem_append.mp h' with h'' | h''
        · exact hb r' h''
        · rcases List.mem_singleton.mp h'' with rfl
          exact hrs r' (List.mem_cons_self _ _)
      · intro r' h'
        exact hrs r' (List.mem_cons_of_mem _ h')
    · have hstep : batchLoop p b (r :: rs) =
          b :: batchLoop p { offset := r.offset, nbytes := r.nbytes, regions := [r] } rs := by
        simp [batchLoop, h]
      rw [hstep] at hbatch
      rcases List.mem_cons.mp hbatch with rfl | hmem
      · exact hb rr hrr
      · refine ih _ ?_ hhead hpw' batch hmem rr hrr
        intro r' h'
        rcases List.mem_singleton.mp h' with rfl
        exact Nat.le_refl _

/-! ### `VFS::read_all` (vfs.cc:865-910) -/

/-- The work done by one task enqueued by `read_all`: read `buf_nbytes`
bytes starting at file offset `buf_offset` into a fresh buffer, then for
each `(dest, src, n)` in `copies`, copy `n` bytes from buffer position
`src` to destination `dest`. -/
structure ReadAllTask where
  buf_offset : Nat
  buf_nbytes : Nat
  copies : List (Nat × Nat × Nat)
  deriving Repr, DecidableEq

/-- `VFS::read_all` (vfs.cc:865-910): nothing is enqueued for an empty
region list (vfs.cc:876-877); otherwise one task is enqueued per batch of
`compute_read_batches`, and the task memcpy's each region from buffer
position `offset - batch_copy.offset` (uint64, vfs.cc:898). -/
def read_all (p : VfsParams) (regions : List Region) : List ReadAllTask :=
  if regions.isEmpty then []
  else
    (compute_read_batches p regions).map fun b =>
      { buf_offset := b.offset,
        buf_nbytes := b.nbytes,
        copies := b.regions.map fun r => (r.dest, sub64 r.offset b.offset, r.nbytes) }

/-- The task the claim describes for a batch: the copy source position is
the region's offset minus the batch's offset (an actual difference, not a
wrapping one). -/
def taskOfBatch (b : BatchedRead) : ReadAllTask :=
  { buf_offset := b.offset,
    buf_nbytes := b.nbytes,
    copies := b.regions.map fun r => (r.dest, r.offset - b.offset, r.nbytes) }

/-! ### Batch span containment (C8) -/

/-- Two byte regions do not overlap: their half-open byte intervals
`[offset, offset + nbytes)` are disjoint. -/
def regionsDisjoint (a b : Region) : Prop :=
  a.offset + a.nbytes ≤ b.offset ∨ b.offset + b.nbytes ≤ a.offset ∨
    a.nbytes = 0 ∨ b.nbytes = 0

instance : DecidableRel regionsDisjoint := fun a b => by
  unfold regionsDisjoint; infer_instance

theorem regionsDisjoint_symm : ∀ {a b : Region}, regionsDisjoint a b → regionsDisjoint b a := by
  intro a b h
  rcases h with h | h | h | h
  · exact Or.inr (Or.inl h)
  · exact Or.inl h
  · exact Or.inr (Or.inr (Or.inr h))
  · exact Or.inr (Or.inr (Or.inl h))

/-- `a` lies entirely (strictly) before `b`. -/
def sepR (a b : Region) : Prop := a.offset + a.nbytes ≤ b.offset

/-- Every batch contains each of its regions within the batch's byte span. -/
def batchesContainRegions (bs : List BatchedRead) : Prop :=
  ∀ b ∈ bs, ∀ r ∈ b.regions,
    b.offset ≤ r.offset ∧ r.offset + r.nbytes ≤ b.offset + b.nbytes

instance : DecidablePred batchesContainRegions := fun bs => by
  unfold batchesContainRegions; infer_instance

/-- Containment invariant of the batching loop, for separated
(non-overlapping, offset-sorted, positive-length) regions. -/
theorem batchLoop_contained (p : VfsParams) :
    ∀ (rs : List Region) (b : BatchedRead),
      (∀ r ∈ b.regions, b.offset ≤ r.offset ∧ r.offset + r.nbytes ≤ b.offset + b.nbytes) →
      (∀ r ∈ rs, b.offset + b.nbytes ≤ r.offset) →
      List.Pairwise sepR rs →
      b.offset + b.nbytes < U64 →
      (∀ r ∈ rs, r.offset + r.nbytes < U64) →
      batchesContainRegions (batchLoop p b rs) := by
  intro rs
  induction rs with
  | nil =>
    intro b hb _ _ _ _ batch hbatch r hr
    rw [batchLoop] at hbatch
    rcases List.mem_singleton.mp hbatch with rfl
    exact hb r hr
  | cons r rs ih =>
    intro b hb hsep hpw hbnd hrsbnd
    have hpw' := List.Pairwise.of_cons hpw
    have hrbnd : r.offset + r.nbytes < U64 := hrsbnd r (List.mem_cons_self _ _)
    have hbr : b.offset + b.nbytes ≤ r.offset := hsep r (List.mem_cons_self _ _)
    have hoff_le : b.offset ≤ r.offset := le_trans (Nat.le_add_right _ _) hbr
    have hoff_le' : b.offset ≤ r.offset + r.nbytes := le_trans hoff_le (Nat.le_add_right _ _)
    have hspan : sub64 (add64 r.offset r.nbytes) b.offset = r.offset + r.nbytes - b.offset := by
      rw [add64_eq_of_lt hrbnd, sub64_eq_of_le hoff_le' hrbnd]
    by_cases h : mergeCond p b r
    · have hstep : batchLoop p b (r :: rs) =
          batchLoop p
            { offset := b.offset,
              nbytes := sub64 (add64 r.offset r.nbytes) b.offset,
              regions := b.regions ++ [r] } rs := by
        simp [batchLoop, h]
      rw [hstep]
      have hend : b.offset + (r.offset + r.nbytes - b.offset) = r.offset + r.nbytes := by omega
      refine ih _ ?_ ?_ hpw' ?_ ?_
      · intro r' h'
        rcases List.mem_append.mp h' with h'' | h''
        · have := hb r' h''
          simp only [hspan, hend]
          exact ⟨this.1, le_trans this.2 (le_trans hbr (Nat.le_add_right _ _))⟩
        · rcases List.mem_singleton.mp h'' with rfl
          simp only [hspan, hend]
          exact ⟨hoff_le, Nat.le_refl _⟩
      · intro r' h'
        simp only [hspan, hend]
        exact List.rel_of_pairwise_cons hpw h'
      · simpa only [hspan, hend] using hrbnd
      · intro r' h'
        exact hrsbnd r' (List.mem_cons_of_mem _ h')
    · have hstep : batchLoop p b (r :: rs) =
          b :: batchLoop p { offset := r.offset, nbytes := r.nbytes, regions := [r] } rs := by
        simp [batchLoop, h]
      rw [hstep]
      intro batch hbatch rr hrr
      rcases List.mem_cons.mp hbatch with rfl | hmem
      · exact hb rr hrr
      · refine ih _ ?_ ?_ hpw' hrbnd ?_ batch hmem rr hrr
        · intro r' h'
          rcases List.mem_singleton.mp h' with rfl
          exact ⟨Nat.le_refl _, Nat.le_refl _⟩
        · intro r' h'
          exact List.rel_of_pairwise_cons hpw h'
        · intro r' h'
          exact hrsbnd r' (List.mem_cons_of_mem _ h')

/-! ## `VFS::read` parallel chunking (vfs.cc:792-835) -/

/-- Modelled from the spec: `utils::math::ceil` (tiledb/sm/misc/utils.h, not
under src/) — ceiling division `⌈x / y⌉` on `uint64_t`, as its name states
(`0` when `y = 0`). -/
def utils_math_ceil (x y : Nat) : Nat :=
  x / y + if x % y = 0 then 0 else 1

/-- The number of parallel operations chosen by `VFS::read` (vfs.cc:800-802)
for a `file://` URI: `min(max(nbytes / min_parallel_size, 1),
max_parallel_ops)`. -/
def num_ops (p : VfsParams) (nbytes : Nat) : Nat :=
  min (max (nbytes / p.min_parallel_size_) 1) p.max_parallel_ops_

/-- The `(begin, thread_nbytes)` pairs of the parallel read loop
(vfs.cc:811-816): `begin = i * thread_read_nbytes`,
`end = min((i + 1) * thread_read_nbytes - 1, nbytes - 1)`,
`thread_nbytes = end - begin + 1`, all in `uint64_t` arithmetic; chunk `i`
reads `thread_nbytes` bytes from file offset `offset + begin` into buffer
position `begin`. -/
def readChunks (nbytes k : Nat) : List (Nat × Nat) :=
  let t := utils_math_ceil nbytes k
  (List.range k).map fun i =>
    let b := mul64 i t
    let e := min (sub64 (mul64 (i + 1) t) 1) (sub64 nbytes 1)
    (b, add64 (sub64 e b) 1)

/-- The chunks partition `[0, nbytes)`: every chunk's byte range stays in
bounds and every destination byte is written by exactly one chunk. -/
def chunksPartition (nbytes : Nat) (cs : List (Nat × Nat)) : Prop :=
  (∀ c ∈ cs, c.1 + c.2 ≤ nbytes) ∧
    ∀ j < nbytes,
      (cs.filter fun c => decide (c.1 ≤ j) && decide (j < c.1 + c.2)).length = 1

instance : Decidable (chunksPartition n cs) := by
  unfold chunksPartition; infer_instance

/-! ## Process-wide file locks (vfs.cc:48-60, 357-474)

`process_filelocks_` maps a URI string to a pair (lock count, lock handle).
We model the map as an association list, the OS lock handle (`filelock_t`)
as a `Nat`, and the OS-level lock/unlock calls as an explicit list of
actions performed by the call.  The Posix/Win `filelock_lock` primitive is
not under src/; modelled from the spec as an opaque OS-lock acquisition
that succeeds and returns a fresh handle. -/

/-- URI schemes distinguished by `vfs.cc` (`is_file`, `is_hdfs`, `is_s3`). -/
inductive UriScheme
  | file
  | hdfs
  | s3
  | other
  deriving Repr, DecidableEq

/-- A URI, reduced to what the filelock code observes: its scheme and its
`to_string()` form (the map key). -/
structure ModelURI where
  scheme : UriScheme
  str : String
  deriving Repr, DecidableEq

/-- An OS-level lock action performed during a call. -/
inductive OsAction
  | lock (uri : String) (fd : Nat)
  | unlock (fd : Nat)
  deriving Repr, DecidableEq

/-- The process-wide lock state: the `process_filelocks_` map (URI string
to (count, handle)) plus a supply of fresh OS handles. -/
structure LockMapState where
  entries : List (String × Nat × Nat)
  next_fd : Nat
  deriving Repr, DecidableEq

/-- Association-list lookup (`process_filelocks_.find`). -/
def lkp : List (String × Nat × Nat) → String → Option (Nat × Nat)
  | [], _ => none
  | (k, c, f) :: es, u => if k = u then some (c, f) else lkp es u

/-- In-place update of the entry with the given key. -/
def updEntry : List (String × Nat × Nat) → String → Nat × Nat → List (String × Nat × Nat)
  | [], _, _ => []
  | (k, c, f) :: es, u, v => if k = u then (k, v.1, v.2) :: es else (k, c, f) :: updEntry es u v

/-- Erasure of the entry with the given key (`process_filelocks_.erase`). -/
def eraseEntry : List (String × Nat × Nat) → String → List (String × Nat × Nat)
  | [], _ => []
  | (k, c, f) :: es, u => if k = u then es else (k, c, f) :: eraseEntry es u

/-- `VFS::filelock_lock` (vfs.cc:357-406).  Returns
(status ok?, the `*lock` out-parameter, the new map state, OS actions).
`enabled` is `vfs_params_.file_params_.enable_filelocks_`; `have_hdfs` and
`have_s3` reflect the build flags. -/
def filelock_lock (enabled have_hdfs have_s3 : Bool) (u : ModelURI) (_shared : Bool)
    (st : LockMapState) : Bool × Option Nat × LockMapState × List OsAction :=
  if !enabled then (true, none, st, [])
  else
    match lkp st.entries u.str with
    | some (c, f) =>
      (true, some f, { st with entries := updEntry st.entries u.str (c + 1, f) }, [])
    | none =>
      match u.scheme with
      | .file =>
        let f := st.next_fd
        (true, some f, ⟨(u.str, 1, f) :: st.entries, st.next_fd + 1⟩, [.lock u.str f])
      | .hdfs => (have_hdfs, none, st, [])
      | .s3 => (have_s3, none, st, [])
      | .other => (false, none, st, [])

/-- `VFS::decr_lock_count` (vfs.cc:453-474).  Returns
(status ok?, `*is_zero`, `*lock` when zero, the new map state). -/
def decr_lock_count (u : ModelURI) (st : LockMapState) :
    Bool × Bool × Option Nat × LockMapState :=
  match lkp st.entries u.str with
  | none => (false, false, none, st)
  | some (c, f) =>
    if c = 0 then (false, false, none, st)
    else if c - 1 = 0 then (true, true, some f, { st with entries := eraseEntry st.entries u.str })
    else (true, false, none, { st with entries := updEntry st.entries u.str (c - 1, f) })

/-- `VFS::filelock_unlock` (vfs.cc:408-451).  Returns
(status ok?, the new map state, OS actions). -/
def filelock_unlock (enabled have_hdfs have_s3 : Bool) (u : ModelURI)
    (st : LockMapState) : Bool × LockMapState × List OsAction :=
  if !enabled then (true, st, [])
  else
    let r := decr_lock_count u st
    if !r.1 || !r.2.1 then (r.1, r.2.2.2, [])
    else
      match u.scheme with
      | .file => (true, r.2.2.2, [.unlock (r.2.2.1.getD 0)])
      | .hdfs => (have_hdfs, r.2.2.2, [])
      | .s3 => (have_s3, r.2.2.2, [])
      | .other => (false, r.2.2.2, [])

/-! ## The subarray partitioner state machine

The partitioner implementation (`subarray_partitioner.cc`) is not under
src/ — only its header `subarray_partitioner.h` is.  The following state
machine is modelled from the specification (spec.md §4.D-§4.F, §6): a
partition's `Subarray` payload is abstracted to the number of splittable
cells it covers (`size_`), since splitting copies the originating flat
interval `[start_, end_]` verbatim to both halves and halves the payload;
a partition is unsplittable exactly when a single cell remains (spec.md
§4.F, "single cell, or real-domain exhaustion", folded into the abstract
size reaching one).  Result-size estimation, budgets and calibration are
opaque to the bookkeeping and appear as oracle parameters. -/

/-- Modelled from the spec: an entry of `state_.single_range_` or
`state_.multi_range_` — a pending subarray, reduced to its originating
flat-range interval `[start_, end_]` and its abstract splittable size. -/
structure Item where
  start_ : Nat
  end_ : Nat
  size_ : Nat
  deriving Repr, DecidableEq

/-- Modelled from the spec: `SubarrayPartitioner::PartitionInfo`
(subarray_partitioner.h:81-99) — the current partition with the interval
of original flat ranges it was constructed from, and whether it came from
the multi-range queue. -/
structure CurrentInfo where
  start_ : Nat
  end_ : Nat
  size_ : Nat
  split_multi_range_ : Bool
  deriving Repr, DecidableEq

/-- Modelled from the spec: `SubarrayPartitioner::State`
(subarray_partitioner.h:112-138). -/
structure PState where
  start_ : Nat
  end_ : Nat
  single_range_ : List Item
  multi_range_ : List Item
  deriving Repr, DecidableEq

/-- Modelled from the spec: the partitioner, reduced to the fields the
iteration contract observes. -/
structure Partitioner where
  range_num : Nat
  state_ : PState
  current_ : Option CurrentInfo
  deriving Repr, DecidableEq

/-- Modelled from the spec (§6): a fresh partitioner has
`state.start = 0`, `state.end = range_num() - 1`, empty queues and no
current partition yet. -/
def initPartitioner (n : Nat) : Partitioner :=
  ⟨n, ⟨0, n - 1, [], []⟩, none⟩

/-- Modelled from the spec (§3, invariant 5): `done()` holds iff
`state.start > state.end` and both queues are empty. -/
def done (P : Partitioner) : Bool :=
  decide (P.state_.end_ < P.state_.start_) && P.state_.single_range_.isEmpty &&
    P.state_.multi_range_.isEmpty

/-- Modelled from the spec (§4.D.3a): the largest `e' ∈ [s, e]` such that
the flat interval `[s, e']` fits every budget, found by a deterministic
descending search over the oracle `fits`. -/
def findEnd (fits : Nat → Nat → Bool) (s : Nat) : Nat → Option Nat
  | 0 => if 0 < s then none else if fits s 0 then some 0 else none
  | e + 1 =>
    if e + 1 < s then none
    else if fits s (e + 1) then some (e + 1)
    else findEnd fits s e

/-- Modelled from the spec (§4.D.4-5): drain the front of a queue — split
it (halving its abstract size, both halves keeping the originating
interval, left half in front) while the `must_split` oracle `ms` demands
it; emit the front once it fits, or emit it anyway with
`unsplittable = true` once a single cell remains.  Returns the emitted
partition, the `unsplittable` flag, and the remaining queue. -/
def drainFuel (ms : Item → Bool) (flag : Bool) :
    Nat → Item → List Item → CurrentInfo × Bool × List Item
  | 0, f, rest =>
    if ms f = false then
      ({ start_ := f.start_, end_ := f.end_, size_ := f.size_, split_multi_range_ := flag },
        false, rest)
    else
      ({ start_ := f.start_, end_ := f.end_, size_ := f.size_, split_multi_range_ := flag },
        true, rest)
  | fuel + 1, f, rest =>
    if ms f = false then
      ({ start_ := f.start_, end_ := f.end_, size_ := f.size_, split_multi_range_ := flag },
        false, rest)
    else if 2 ≤ f.size_ then
      drainFuel ms flag fuel
        { start_ := f.start_, end_ := f.end_, size_ := f.size_ - f.size_ / 2 }
        ({ start_ := f.start_, end_ := f.end_, size_ := f.size_ / 2 } :: rest)
    else
      ({ start_ := f.start_, end_ := f.end_, size_ := f.size_, split_multi_range_ := flag },
        true, rest)

/-- `drainFuel` with enough fuel: each split strictly decreases the
abstract size, so a fuel equal to the front's size is never exhausted. -/
def drain (ms : Item → Bool) (flag : Bool) (f : Item) (rest : List Item) :
    CurrentInfo × Bool × List Item :=
  drainFuel ms flag f.size_ f rest

/-- The opaque collaborators of one `next` call (spec.md §4.B, §4.E-§4.F):
`fits s e` — do the flat ranges `[s, e]` fit every budget; `calib s e` —
calibrated end and `must_split_slab` (§4.E); `szOf s e` — abstract size of
the materialized partition over `[s, e]`; `ms` — `must_split` (§4.F). -/
structure NextOracles where
  fits : Nat → Nat → Bool
  calib : Nat → Nat → Nat × Bool
  szOf : Nat → Nat → Nat
  ms : Item → Bool

/-- Modelled from the spec (§4.D): `SubarrayPartitioner::next`.  Returns
the new partitioner, the status (`true` = Ok), and the `unsplittable`
out-parameter. -/
def next (o : NextOracles) (P : Partitioner) : Partitioner × Bool × Bool :=
  if done P then (P, true, false)
  else
    match P.state_.single_range_ with
    | f :: rest =>
      let d := drain o.ms false f rest
      let st' := { P.state_ with single_range_ := d.2.2 }
      ({ P with state_ := st', current_ := some d.1 }, true, d.2.1)
    | [] =>
      match P.state_.multi_range_ with
      | f :: rest =>
        let d := drain o.ms true f rest
        let st' := { P.state_ with multi_range_ := d.2.2 }
        ({ P with state_ := st', current_ := some d.1 }, true, d.2.1)
      | [] =>
        let s := P.state_.start_
        match findEnd o.fits s P.state_.end_ with
        | none =>
          let d := drain o.ms false ⟨s, s, o.szOf s s⟩ []
          let st' := { P.state_ with start_ := s + 1, single_range_ := d.2.2 }
          ({ P with state_ := st', current_ := some d.1 }, true, d.2.1)
        | some e' =>
          let c := o.calib s e'
          if c.2 then
            let d := drain o.ms true ⟨s, c.1, o.szOf s c.1⟩ []
            let st' := { P.state_ with start_ := c.1 + 1, multi_range_ := d.2.2 }
            ({ P with state_ := st', current_ := some d.1 }, true, d.2.1)
          else
            let st' := { P.state_ with start_ := c.1 + 1 }
            ({ P with state_ := st', current_ := some ⟨s, c.1, o.szOf s c.1, false⟩ }, true, false)

/-- Modelled from the spec (§4.D, §9): `SubarrayPartitioner::split_current`.
Splits the current partition, pushing the right half onto the queue the
current partition came from and re-emitting the left half as current; if
no half can be produced, sets `unsplittable` and modifies nothing.  After
`done()` it is a no-op returning `unsplittable = true` (spec.md §9, open
questions). -/
def split_current (P : Partitioner) : Partitioner × Bool × Bool :=
  if done P then (P, true, true)
  else
    match P.current_ with
    | none => (P, true, true)
    | some c =>
      if 2 ≤ c.size_ then
        let l : CurrentInfo := { c with size_ := c.size_ - c.size_ / 2 }
        let r : Item := ⟨c.start_, c.end_, c.size_ / 2⟩
        if c.split_multi_range_ then
          let st' := { P.state_ with multi_range_ := r :: P.state_.multi_range_ }
          ({ P with current_ := some l, state_ := st' }, true, false)
        else
          let st' := { P.state_ with single_range_ := r :: P.state_.single_range_ }
          ({ P with current_ := some l, state_ := st' }, true, false)
      else (P, true, true)

/-- One operation of a legal call sequence. -/
inductive Op
  | callNext (o : NextOracles)
  | callSplitCurrent

/-- One step of a call sequence; the second component is the flat interval
`[start_, end_]` of the partition emitted by `next` (if any). -/
def runStep (P : Partitioner) : Op → Partitioner × Option (Nat × Nat)
  | .callNext o =>
    if done P then ((next o P).1, none)
    else ((next o P).1, (next o P).1.current_.map fun c => (c.start_, c.end_))
  | .callSplitCurrent => ((split_current P).1, none)

/-- Run a call sequence, accumulating the trace of intervals emitted by
`next`. -/
def runAux : Partitioner → List (Nat × Nat) → List Op → Partitioner × List (Nat × Nat)
  | P, tr, [] => (P, tr)
  | P, tr, op :: ops => runAux (runStep P op).1 (tr ++ ((runStep P op).2).toList) ops

/-- Run a call sequence on a fresh partitioner over `n` flat ranges. -/
def run (n : Nat) (ops : List Op) : Partitioner × List (Nat × Nat) :=
  runAux (initPartitioner n) [] ops

/-- Well-behavedness of the calibration oracle of an operation (spec.md
§4.E: calibration only shrinks the tentative end, never below the start). -/
def calibOK : Op → Prop
  | .callNext o => ∀ s e, s ≤ e → s ≤ (o.calib s e).1 ∧ (o.calib s e).1 ≤ e
  | .callSplitCurrent => True

/-! ## Shared structural lemmas about `compute_read_batches` -/

/-- The regions of the computed batches, concatenated in batch order, are
exactly the offset-sorted input. -/
theorem compute_read_batches_flatten (p : VfsParams) (regions : List Region) :
    batchesRegions (compute_read_batches p regions) = sortRegions regions := by
  cases hs : sortRegions regions with
  | nil => simp [compute_read_batches, hs, batchesRegions]
  | cons r rs =>
    have heq : compute_read_batches p regions =
        batchLoop p { offset := r.offset, nbytes := r.nbytes, regions := [r] } rs := by
      simp [compute_read_batches, hs]
    rw [heq, batchLoop_regions]
    simp

/-- Each region of a computed batch starts at or after its batch's offset. -/
theorem compute_read_batches_offset_le (p : VfsParams) (regions : List Region) :
    ∀ b ∈ compute_read_batches p regions, ∀ r ∈ b.regions, b.offset ≤ r.offset := by
  cases hs : sortRegions regions with
  | nil =>
    intro b hb
    simp [compute_read_batches, hs] at hb
  | cons r rs =>
    have heq : compute_read_batches p regions =
        batchLoop p { offset := r.offset, nbytes := r.nbytes, regions := [r] } rs := by
      simp [compute_read_batches, hs]
    rw [heq]
    have hsorted : List.Pairwise regLE (r :: rs) := by
      rw [← hs]; exact List.sorted_insertionSort regLE regions
    refine batchLoop_offset_le p rs _ ?_ ?_ (List.Pairwise.of_cons hsorted)
    · intro r' h'
      rcases List.mem_singleton.mp h' with rfl
      exact Nat.le_refl _
    · intro r' h'
      exact List.rel_of_pairwise_cons hsorted h'

/-- Each region of a computed batch is one of the input regions. -/
theorem mem_regions_of_mem_batch (p : VfsParams) (regions : List Region)
    (b : BatchedRead) (hb : b ∈ compute_read_batches p regions)
    (r : Region) (hr : r ∈ b.regions) : r ∈ regions := by
  have h1 : r ∈ batchesRegions (compute_read_batches p regions) :=
    mem_batchesRegions_of_mem _ b hb r hr
  rw [compute_read_batches_flatten] at h1
  have hperm : List.Perm (sortRegions regions) regions :=
    List.perm_insertionSort regLE regions
  exact hperm.mem_iff.mp h1

/-! ## Claim theorems -/

/-- C3: for every non-empty region list, `compute_read_batches` first
orders the regions by offset; the concatenation of the output batches'
region lists is exactly that sorted list (so every input region is placed
in exactly one output batch, as a permutation of the input); and the
batches are exactly those produced by the specification's policy: merge a
successive region iff the merged span (the region's end minus the batch's
offset) is at most `min_batch_size`, or the gap between the batch's end
and the region's offset is at most `min_batch_gap` (both `uint64_t`
differences), otherwise emit the batch and start a new one at that
region. -/
theorem c3_compute_read_batches (p : VfsParams) (regions : List Region)
    (_hne : regions ≠ []) :
    batchesRegions (compute_read_batches p regions) = sortRegions regions ∧
    List.Perm (sortRegions regions) regions ∧
    List.Sorted regLE (sortRegions regions) ∧
    compute_read_batches p regions = specReadBatches p regions := by
  refine ⟨compute_read_batches_flatten p regions,
    List.perm_insertionSort regLE regions,
    List.sorted_insertionSort regLE regions, ?_⟩
  cases hs : sortRegions regions with
  | nil => simp [compute_read_batches, specReadBatches, hs]
  | cons r rs =>
    have h1 : compute_read_batches p regions =
        batchLoop p { offset := r.offset, nbytes := r.nbytes, regions := [r] } rs := by
      simp [compute_read_batches, hs]
    have h2 : specReadBatches p regions =
        specGo p [] { offset := r.offset, nbytes := r.nbytes, regions := [r] } rs := by
      simp [specReadBatches, hs]
    rw [h1, h2, specGo_eq_batchLoop]
    simp

theorem c3_compute_read_batches_witness :
    ([⟨4, 0, 2⟩, ⟨0, 1, 3⟩] : List Region) ≠ [] ∧
    batchesRegions (compute_read_batches ⟨10, 0, 0, 0⟩ [⟨4, 0, 2⟩, ⟨0, 1, 3⟩]) =
      sortRegions [⟨4, 0, 2⟩, ⟨0, 1, 3⟩] :=
  ⟨by decide,
    (c3_compute_read_batches ⟨10, 0, 0, 0⟩ [⟨4, 0, 2⟩, ⟨0, 1, 3⟩] (by decide)).1⟩

/-- C7: `read_all` enqueues no task for an empty region list, and for a
non-empty list it enqueues exactly one task per computed batch; the task
for a batch reads the batch's `nbytes` bytes at the batch's offset and
copies each region's `nbytes` bytes to its destination from buffer
position `region.offset - batch.offset` (the actual difference — the
code's `uint64_t` subtraction never wraps here because a batch's offset
is the smallest offset among its regions). -/
theorem c7_read_all_tasks (p : VfsParams) (regions : List Region)
    (hne : regions ≠ []) (hbound : ∀ r ∈ regions, r.offset < U64) :
    read_all p [] = [] ∧
    (read_all p regions).length = (compute_read_batches p regions).length ∧
    read_all p regions = (compute_read_batches p regions).map taskOfBatch := by
  have hner : regions.isEmpty = false := by
    cases regions with
    | nil => exact absurd rfl hne
    | cons a l => rfl
  have hmap : read_all p regions = (compute_read_batches p regions).map taskOfBatch := by
    unfold read_all
    rw [hner]
    simp only [Bool.false_eq_true, if_false]
    refine List.map_congr_left ?_
    intro b hb
    unfold taskOfBatch
    congr 1
    refine List.map_congr_left ?_
    intro r hr
    have h1 : b.offset ≤ r.offset := compute_read_batches_offset_le p regions b hb r hr
    have h2 : r.offset < U64 := hbound r (mem_regions_of_mem_batch p regions b hb r hr)
    rw [sub64_eq_of_le h1 h2]
  exact ⟨rfl, by rw [hmap]; simp, hmap⟩

theorem c7_read_all_tasks_witness :
    ([⟨4, 0, 2⟩, ⟨0, 1, 3⟩] : List Region) ≠ [] ∧
    read_all ⟨10, 0, 0, 0⟩ [⟨4, 0, 2⟩, ⟨0, 1, 3⟩] =
      (compute_read_batches ⟨10, 0, 0, 0⟩ [⟨4, 0, 2⟩, ⟨0, 1, 3⟩]).map taskOfBatch :=
  ⟨by decide,
    (c7_read_all_tasks ⟨10, 0, 0, 0⟩ [⟨4, 0, 2⟩, ⟨0, 1, 3⟩] (by decide) (by decide)).2.2⟩

/-- C8 (counterexample to the claim as stated): with a zero-length region
— whose byte interval is empty, hence disjoint from every region — a
merge can shrink the batch's span below a previously added region's end,
so the regions of a batch need not lie within the batch's byte span. -/
theorem c8_counterexample :
    List.Pairwise regionsDisjoint [⟨0, 0, 10⟩, ⟨5, 1, 0⟩] ∧
    ¬ batchesContainRegions
        (compute_read_batches ⟨100, 0, 0, 0⟩ [⟨0, 0, 10⟩, ⟨5, 1, 0⟩]) := by
  decide

/-- C8 (amended): for regions of nonzero length whose byte intervals are
pairwise disjoint (and which do not overflow `uint64_t`), every computed
batch contains each of its regions entirely within the batch's byte span,
so the scatter-copy of `read_all` reads only within the batch buffer. -/
theorem c8_batch_contains_regions (p : VfsParams) (regions : List Region)
    (hpos : ∀ r ∈ regions, 1 ≤ r.nbytes)
    (hbound : ∀ r ∈ regions, r.offset + r.nbytes < U64)
    (hdisj : List.Pairwise regionsDisjoint regions) :
    batchesContainRegions (compute_read_batches p regions) := by
  have hmemsort : ∀ r' ∈ sortRegions regions, r' ∈ regions := fun r' h' =>
    (List.perm_insertionSort regLE regions).mem_iff.mp h'
  have hsorted : List.Pairwise regLE (sortRegions regions) :=
    List.sorted_insertionSort regLE regions
  have hdisj' : List.Pairwise regionsDisjoint (sortRegions regions) :=
    (List.perm_insertionSort regLE regions).symm.pairwise hdisj
      (fun h => regionsDisjoint_symm h)
  have hsep : List.Pairwise sepR (sortRegions regions) := by
    refine (hsorted.and hdisj').imp_of_mem ?_
    intro a b ha hb hab
    have hpb : 1 ≤ b.nbytes := hpos b (hmemsort b hb)
    have hpa : 1 ≤ a.nbytes := hpos a (hmemsort a ha)
    have hle : a.offset ≤ b.offset := hab.1
    show a.offset + a.nbytes ≤ b.offset
    rcases hab.2 with h | h | h | h
    · exact h
    · omega
    · omega
    · omega
  cases hs : sortRegions regions with
  | nil =>
    intro b hb
    simp [compute_read_batches, hs] at hb
  | cons r0 rs =>
    have heq : compute_read_batches p regions =
        batchLoop p { offset := r0.offset, nbytes := r0.nbytes, regions := [r0] } rs := by
      simp [compute_read_batches, hs]
    rw [heq]
    rw [hs] at hsep hmemsort
    have hr0 : r0 ∈ regions := hmemsort r0 (List.mem_cons_self _ _)
    refine batchLoop_contained p rs _ ?_ ?_ (List.Pairwise.of_cons hsep) ?_ ?_
    · intro r' h'
      rcases List.mem_singleton.mp h' with rfl
      exact ⟨Nat.le_refl _, Nat.le_refl _⟩
    · intro r' h'
      exact List.rel_of_pairwise_cons hsep h'
    · exact hbound r0 hr0
    · intro r' h'
      exact hbound r' (hmemsort r' (List.mem_cons_of_mem _ h'))

theorem c8_batch_contains_regions_witness :
    batchesContainRegions
      (compute_read_batches ⟨0, 0, 0, 0⟩ [⟨10, 0, 5⟩, ⟨0, 1, 5⟩]) :=
  c8_batch_contains_regions ⟨0, 0, 0, 0⟩ [⟨10, 0, 5⟩, ⟨0, 1, 5⟩]
    (by decide) (by decide) (by decide)

/-- C9: at `nbytes = 5`, `min_parallel_size = 1`, `max_parallel_ops = 4`
the code chooses `num_ops = 4` and `thread_read_nbytes = ⌈5/4⌉ = 2`; the
fourth chunk then gets `begin = 6` past the last byte index `4`, and its
`thread_nbytes = end - begin + 1` underflows to `2^64 - 1`, so the chunk
ranges do not partition `[0, nbytes)` — contradicting both the claim and
the code's own comment that each thread is responsible for
`min_parallel_size`-sized portions of the read. -/
theorem c9_read_chunking_bug :
    num_ops ⟨0, 0, 1, 4⟩ 5 = 4 ∧
    readChunks 5 4 = [(0, 2), (2, 2), (4, 1), (6, U64 - 1)] ∧
    ¬ chunksPartition 5 (readChunks 5 4) := by
  decide

/-- C2: with file locks enabled, on a `file://` URI: a `filelock_lock`
with no map entry performs the OS lock and records count 1 under the URI
string; a `filelock_lock` with an existing entry only increments the
count and returns the recorded handle, with no OS action; a
`filelock_unlock` decrements the count, performing the OS unlock and
erasing the entry exactly when the count reaches zero, and doing nothing
at OS level otherwise. -/
theorem c2_filelock_refcount (hh hs : Bool) (s : String) (sh : Bool) (st : LockMapState) :
    (lkp st.entries s = none →
      filelock_lock true hh hs ⟨.file, s⟩ sh st =
        (true, some st.next_fd, ⟨(s, 1, st.next_fd) :: st.entries, st.next_fd + 1⟩,
          [.lock s st.next_fd])) ∧
    (∀ c f, lkp st.entries s = some (c, f) →
      filelock_lock true hh hs ⟨.file, s⟩ sh st =
        (true, some f, { st with entries := updEntry st.entries s (c + 1, f) }, [])) ∧
    (∀ f, lkp st.entries s = some (1, f) →
      filelock_unlock true hh hs ⟨.file, s⟩ st =
        (true, { st with entries := eraseEntry st.entries s }, [.unlock f])) ∧
    (∀ c f, lkp st.entries s = some (c + 2, f) →
      filelock_unlock true hh hs ⟨.file, s⟩ st =
        (true, { st with entries := updEntry st.entries s (c + 1, f) }, [])) := by
  refine ⟨?_, ?_, ?_, ?_⟩
  · intro h
    simp [filelock_lock, h]
  · intro c f h
    simp [filelock_lock, h]
  · intro f h
    simp [filelock_unlock, decr_lock_count, h]
  · intro c f h
    simp [filelock_unlock, decr_lock_count, h]

theorem c2_filelock_refcount_witness :
    (lkp ([] : List (String × Nat × Nat)) "file:a" = none ∧
      filelock_lock true false false ⟨.file, "file:a"⟩ false ⟨[], 7⟩ =
        (true, some 7, ⟨[("file:a", 1, 7)], 8⟩, [.lock "file:a" 7])) ∧
    (lkp [("file:a", 1, 7)] "file:a" = some (1, 7) ∧
      filelock_lock true false false ⟨.file, "file:a"⟩ false ⟨[("file:a", 1, 7)], 8⟩ =
        (true, some 7, ⟨[("file:a", 2, 7)], 8⟩, [])) ∧
    (filelock_unlock true false false ⟨.file, "file:a"⟩ ⟨[("file:a", 2, 7)], 8⟩ =
      (true, ⟨[("file:a", 1, 7)], 8⟩, [])) ∧
    (filelock_unlock true false false ⟨.file, "file:a"⟩ ⟨[("file:a", 1, 7)], 8⟩ =
      (true, ⟨[], 8⟩, [.unlock 7])) :=
  ⟨⟨rfl, (c2_filelock_refcount false false "file:a" false ⟨[], 7⟩).1 rfl⟩,
    ⟨rfl, by
      have h := (c2_filelock_refcount false false "file:a" false ⟨[("file:a", 1, 7)], 8⟩).2.1
        1 7 rfl
      simpa [updEntry] using h⟩,
    by
      have h := (c2_filelock_refcount false false "file:a" false
        ⟨[("file:a", 2, 7)], 8⟩).2.2.2 0 7 rfl
      simpa [updEntry] using h,
    by
      have h := (c2_filelock_refcount false false "file:a" false
        ⟨[("file:a", 1, 7)], 8⟩).2.2.1 7 rfl
      simpa [eraseEntry] using h⟩

/-- C10: with file locks enabled, `filelock_unlock` on a URI with no
entry in the process-wide map, or whose entry has count `0`, returns an
error status, leaves the map (and the whole lock state) unchanged, and
performs no OS-level unlock. -/
theorem c10_unlock_no_entry (hh hs : Bool) (u : ModelURI) (st : LockMapState)
    (h : lkp st.entries u.str = none ∨ ∃ f, lkp st.entries u.str = some (0, f)) :
    filelock_unlock true hh hs u st = (false, st, []) := by
  rcases h with h | ⟨f, h⟩
  · simp [filelock_unlock, decr_lock_count, h]
  · simp [filelock_unlock, decr_lock_count, h]

theorem c10_unlock_no_entry_witness :
    (lkp ([] : List (String × Nat × Nat)) "file:a" = none ∨
      ∃ f, lkp ([] : List (String × Nat × Nat)) "file:a" = some (0, f)) ∧
    filelock_unlock true false false ⟨.file, "file:a"⟩ ⟨[], 3⟩ = (false, ⟨[], 3⟩, []) ∧
    filelock_unlock true true true ⟨.s3, "s3:b"⟩ ⟨[("s3:b", 0, 1)], 3⟩ =
      (false, ⟨[("s3:b", 0, 1)], 3⟩, []) :=
  ⟨Or.inl rfl,
    c10_unlock_no_entry false false ⟨.file, "file:a"⟩ ⟨[], 3⟩ (Or.inl rfl),
    c10_unlock_no_entry true true ⟨.s3, "s3:b"⟩ ⟨[("s3:b", 0, 1)], 3⟩
      (Or.inr ⟨1, rfl⟩)⟩

/-- C4: if `done()` holds, `next` returns Ok, leaves the partitioner (its
state and its current partition) unchanged, sets `unsplittable = false` —
and `done()` still holds afterwards, so once `done()` becomes true it
stays true and every subsequent `next` is a no-op. -/
theorem c4_next_after_done (o : NextOracles) (P : Partitioner) (h : done P = true) :
    next o P = (P, true, false) ∧ done (next o P).1 = true := by
  constructor
  · simp [next, h]
  · simp [next, h]

theorem c4_next_after_done_witness :
    done (Partitioner.mk 1 ⟨1, 0, [], []⟩ (some ⟨0, 0, 1, false⟩)) = true ∧
    next ⟨fun _ _ => true, fun s _ => (s, false), fun _ _ => 1, fun _ => false⟩
        (Partitioner.mk 1 ⟨1, 0, [], []⟩ (some ⟨0, 0, 1, false⟩)) =
      (Partitioner.mk 1 ⟨1, 0, [], []⟩ (some ⟨0, 0, 1, false⟩), true, false) :=
  ⟨by decide,
    (c4_next_after_done ⟨fun _ _ => true, fun s _ => (s, false), fun _ _ => 1, fun _ => false⟩
      (Partitioner.mk 1 ⟨1, 0, [], []⟩ (some ⟨0, 0, 1, false⟩)) (by decide)).1⟩

/-- C5: `next` and `split_current` always return an Ok status; when they
set `unsplittable = true`, `next` still has a current partition (the
unsplittable front was emitted anyway), and `split_current` leaves the
whole partitioner — in particular the `single_range_` and `multi_range_`
queues and the current partition — unmodified. -/
theorem c5_unsplittable_ok (o : NextOracles) (P : Partitioner) :
    (next o P).2.1 = true ∧
    ((next o P).2.2 = true → ∃ c, (next o P).1.current_ = some c) ∧
    (split_current P).2.1 = true ∧
    ((split_current P).2.2 = true → (split_current P).1 = P) := by
  have hnext : (next o P).2.1 = true ∧
      ((next o P).2.2 = true → ∃ c, (next o P).1.current_ = some c) := by
    by_cases hd : done P
    · simp [next, hd]
    · cases h1 : P.state_.single_range_ with
      | cons f rest => simp [next, hd, h1]
      | nil =>
        cases h2 : P.state_.multi_range_ with
        | cons f rest => simp [next, hd, h1, h2]
        | nil =>
          cases h3 : findEnd o.fits P.state_.start_ P.state_.end_ with
          | none => simp [next, hd, h1, h2, h3]
          | some e' =>
            by_cases h4 : (o.calib P.state_.start_ e').2 <;>
              simp [next, hd, h1, h2, h3, h4]
  have hsplit : (split_current P).2.1 = true ∧
      ((split_current P).2.2 = true → (split_current P).1 = P) := by
    by_cases hd : done P
    · simp [split_current, hd]
    · cases hc : P.current_ with
      | none => simp [split_current, hd, hc]
      | some c =>
        by_cases h2 : 2 ≤ c.size_
        · by_cases h3 : c.split_multi_range_ <;> simp [split_current, hd, hc, h2, h3]
        · simp [split_current, hd, hc, h2]
  exact ⟨hnext.1, hnext.2, hsplit.1, hsplit.2⟩

theorem c5_unsplittable_ok_witness :
    ((next ⟨fun _ _ => false, fun s _ => (s, false), fun _ _ => 1, fun _ => true⟩
        ⟨1, ⟨1, 0, [⟨0, 0, 1⟩], []⟩, none⟩).2.2 = true ∧
      ∃ c, (next ⟨fun _ _ => false, fun s _ => (s, false), fun _ _ => 1, fun _ => true⟩
        ⟨1, ⟨1, 0, [⟨0, 0, 1⟩], []⟩, none⟩).1.current_ = some c) ∧
    ((split_current ⟨4, ⟨2, 3, [], []⟩, some ⟨0, 1, 1, false⟩⟩).2.2 = true ∧
      (split_current ⟨4, ⟨2, 3, [], []⟩, some ⟨0, 1, 1, false⟩⟩).1 =
        ⟨4, ⟨2, 3, [], []⟩, some ⟨0, 1, 1, false⟩⟩) :=
  ⟨⟨by decide,
    (c5_unsplittable_ok ⟨fun _ _ => false, fun s _ => (s, false), fun _ _ => 1, fun _ => true⟩
      ⟨1, ⟨1, 0, [⟨0, 0, 1⟩], []⟩, none⟩).2.1 (by decide)⟩,
    ⟨by decide,
      (c5_unsplittable_ok ⟨fun _ _ => false, fun s _ => (s, false), fun _ _ => 1, fun _ => true⟩
        ⟨4, ⟨2, 3, [], []⟩, some ⟨0, 1, 1, false⟩⟩).2.2.2 (by decide)⟩⟩

/-! ## The emission-trace invariant of the partitioner (C1) -/

/-- Some emitted interval of the trace contains `x`. -/
def covers (tr : List (Nat × Nat)) (x : Nat) : Prop :=
  ∃ I ∈ tr, I.1 ≤ x ∧ x ≤ I.2

/-- Two consecutive emitted intervals are either identical (further splits
of one originating interval) or exactly adjacent in the flattened order. -/
def intervalStep (a b : Nat × Nat) : Prop :=
  b = a ∨ b.1 = a.2 + 1

/-- The emitted intervals are nonempty sub-intervals of `[0, n-1]`,
consecutive ones are identical or adjacent, and the first starts at `0`. -/
def traceGood (n : Nat) (tr : List (Nat × Nat)) : Prop :=
  (∀ I ∈ tr, I.1 ≤ I.2 ∧ I.2 < n) ∧
    List.Chain' intervalStep tr ∧
    ∀ I, tr.head? = some I → I.1 = 0

/-- All queued items carry the originating interval `I`. -/
def queueInv (I : Nat × Nat) (its : List Item) : Prop :=
  ∀ it ∈ its, it.start_ = I.1 ∧ it.end_ = I.2

/-- The reachability invariant tying a partitioner to its emission trace:
the state's end never moves from `n - 1`; the trace is well-formed; every
flat index below `state_.start_` is already covered; and relative to the
last emitted interval `I`: `state_.start_ = I.2 + 1`, the current
partition carries `I`, and both queues hold only remnants of `I` (before
any emission the partitioner is fresh). -/
def InvFull (n : Nat) (P : Partitioner) (tr : List (Nat × Nat)) : Prop :=
  P.range_num = n ∧
    P.state_.end_ = n - 1 ∧
    traceGood n tr ∧
    (∀ x, x < P.state_.start_ → covers tr x) ∧
    match tr.getLast? with
    | none =>
      P.state_.start_ = 0 ∧ P.state_.single_range_ = [] ∧
        P.state_.multi_range_ = [] ∧ P.current_ = none
    | some I =>
      P.state_.start_ = I.2 + 1 ∧
        (∃ c, P.current_ = some c ∧ c.start_ = I.1 ∧ c.end_ = I.2) ∧
        queueInv I P.state_.single_range_ ∧ queueInv I P.state_.multi_range_

theorem InvFull_init (n : Nat) : InvFull n (initPartitioner n) [] := by
  refine ⟨rfl, rfl, ⟨?_, ?_, ?_⟩, ?_, ?_⟩
  · intro I hI; cases hI
  · exact List.chain'_nil
  · intro I hI; cases hI
  · intro x hx; cases hx
  · exact ⟨rfl, rfl, rfl, rfl⟩

/-- A successful budget search stays within the requested interval. -/
theorem findEnd_some {fits : Nat → Nat → Bool} {s : Nat} :
    ∀ {e r : Nat}, findEnd fits s e = some r → s ≤ r ∧ r ≤ e := by
  intro e
  induction e with
  | zero =>
    intro r h
    simp only [findEnd] at h
    by_cases h1 : 0 < s
    · rw [if_pos h1] at h; cases h
    · rw [if_neg h1] at h
      by_cases h2 : fits s 0 = true
      · rw [if_pos h2] at h
        cases h
        omega
      · rw [if_neg h2] at h; cases h
  | succ e ih =>
    intro r h
    simp only [findEnd] at h
    by_cases h1 : e + 1 < s
    · rw [if_pos h1] at h; cases h
    · rw [if_neg h1] at h
      by_cases h2 : fits s (e + 1) = true
      · rw [if_pos h2] at h
        cases h
        omega
      · rw [if_neg h2] at h
        have := ih h
        omega

/-- Shape of a queue drain: the emitted partition carries the front's
interval and the requested flag, and the remaining queue is remnants of
the front (all carrying its interval) followed by the untouched rest. -/
theorem drainFuel_spec (ms : Item → Bool) (flag : Bool) :
    ∀ (fuel : Nat) (f : Item) (rest : List Item),
      ((drainFuel ms flag fuel f rest).1.start_ = f.start_ ∧
        (drainFuel ms flag fuel f rest).1.end_ = f.end_ ∧
        (drainFuel ms flag fuel f rest).1.split_multi_range_ = flag) ∧
      ∃ pre, (drainFuel ms flag fuel f rest).2.2 = pre ++ rest ∧
        ∀ it ∈ pre, it.start_ = f.start_ ∧ it.end_ = f.end_ := by
  intro fuel
  induction fuel with
  | zero =>
    intro f rest
    constructor
    · by_cases h1 : ms f = false <;> simp [drainFuel, h1]
    · refine ⟨[], ?_, fun it h => absurd h (List.not_mem_nil it)⟩
      by_cases h1 : ms f = false <;> simp [drainFuel, h1]
  | succ fuel ih =>
    intro f rest
    by_cases h1 : ms f = false
    · constructor
      · simp [drainFuel, h1]
      · refine ⟨[], ?_, fun it h => absurd h (List.not_mem_nil it)⟩
        simp [drainFuel, h1]
    · by_cases h2 : 2 ≤ f.size_
      · simp only [drainFuel, if_neg h1, if_pos h2]
        obtain ⟨⟨ha, hb, hc⟩, pre, hpre, hmem⟩ :=
          ih { start_ := f.start_, end_ := f.end_, size_ := f.size_ - f.size_ / 2 }
            ({ start_ := f.start_, end_ := f.end_, size_ := f.size_ / 2 } :: rest)
        refine ⟨⟨ha, hb, hc⟩, pre ++ [⟨f.start_, f.end_, f.size_ / 2⟩], ?_, ?_⟩
        · rw [hpre]; simp
        · intro it hit
          rcases List.mem_append.mp hit with h | h
          · exact hmem it h
          · rcases List.mem_singleton.mp h with rfl
            exact ⟨rfl, rfl⟩
      · constructor
        · simp [drainFuel, h1, h2]
        · refine ⟨[], ?_, fun it h => absurd h (List.not_mem_nil it)⟩
          simp [drainFuel, h1, h2]

theorem drain_spec (ms : Item → Bool) (flag : Bool) (f : Item) (rest : List Item) :
    ((drain ms flag f rest).1.start_ = f.start_ ∧
      (drain ms flag f rest).1.end_ = f.end_ ∧
      (drain ms flag f rest).1.split_multi_range_ = flag) ∧
    ∃ pre, (drain ms flag f rest).2.2 = pre ++ rest ∧
      ∀ it ∈ pre, it.start_ = f.start_ ∧ it.end_ = f.end_ :=
  drainFuel_spec ms flag f.size_ f rest

theorem covers_append_left {tr : List (Nat × Nat)} {x : Nat} (h : covers tr x)
    (l : List (Nat × Nat)) : covers (tr ++ l) x := by
  obtain ⟨I, hI, h1, h2⟩ := h
  exact ⟨I, List.mem_append_left _ hI, h1, h2⟩

theorem covers_concat_self {tr : List (Nat × Nat)} {I : Nat × Nat} {x : Nat}
    (h1 : I.1 ≤ x) (h2 : x ≤ I.2) : covers (tr ++ [I]) x :=
  ⟨I, List.mem_append_right _ (List.mem_singleton_self _), h1, h2⟩

theorem traceGood_append (n : Nat) (tr : List (Nat × Nat)) (I : Nat × Nat)
    (hg : traceGood n tr) (hI : I.1 ≤ I.2 ∧ I.2 < n)
    (hrel : match tr.getLast? with
      | none => I.1 = 0
      | some J => intervalStep J I) :
    traceGood n (tr ++ [I]) := by
  obtain ⟨h1, h2, h3⟩ := hg
  refine ⟨?_, ?_, ?_⟩
  · intro J hJ
    rcases List.mem_append.mp hJ with h | h
    · exact h1 J h
    · rcases List.mem_singleton.mp h with rfl
      exact hI
  · refine List.Chain'.append h2 (List.chain'_singleton _) ?_
    intro x hx y hy
    have hy' : I = y := by simpa using hy
    have hx' : tr.getLast? = some x := hx
    rw [hx'] at hrel
    have hstep : intervalStep x I := hrel
    rw [← hy']
    exact hstep
  · intro J hJ
    cases tr with
    | nil =>
      have hIJ : I = J := by simpa using hJ
      have h0 : I.1 = 0 := hrel
      rw [← hIJ]
      exact h0
    | cons a l =>
      have haJ : a = J := by simpa using hJ
      rw [← haJ]
      exact h3 a rfl

/-- Re-establishing the invariant after an emission. -/
theorem InvFull_emit (n : Nat) (tr : List (Nat × Nat)) (P' : Partitioner) (I : Nat × Nat)
    (hrn : P'.range_num = n) (hend : P'.state_.end_ = n - 1)
    (hg : traceGood n tr)
    (hbounds : I.1 ≤ I.2 ∧ I.2 < n)
    (hrel : match tr.getLast? with
      | none => I.1 = 0
      | some J => intervalStep J I)
    (hstart : P'.state_.start_ = I.2 + 1)
    (hcov : ∀ x, x < P'.state_.start_ → covers (tr ++ [I]) x)
    (hcur : ∃ c, P'.current_ = some c ∧ c.start_ = I.1 ∧ c.end_ = I.2)
    (hq1 : queueInv I P'.state_.single_range_)
    (hq2 : queueInv I P'.state_.multi_range_) :
    InvFull n P' (tr ++ [I]) := by
  refine ⟨hrn, hend, traceGood_append n tr I hg hbounds hrel, hcov, ?_⟩
  rw [List.getLast?_concat]
  exact ⟨hstart, hcur, hq1, hq2⟩

/-- `next` preserves the invariant, extending the trace by the emitted
interval. -/
theorem next_inv (n : Nat) (hn : 1 ≤ n) (o : NextOracles)
    (hcal : ∀ s e, s ≤ e → s ≤ (o.calib s e).1 ∧ (o.calib s e).1 ≤ e)
    (P : Partitioner) (tr : List (Nat × Nat)) (hInv : InvFull n P tr) :
    InvFull n (runStep P (Op.callNext o)).1
      (tr ++ ((runStep P (Op.callNext o)).2).toList) := by
  obtain ⟨hrn, hend, hg, hcov, hlast⟩ := hInv
  by_cases hd : done P
  · have h1 : (runStep P (Op.callNext o)).1 = P := by simp [runStep, hd, next]
    have h2 : (runStep P (Op.callNext o)).2 = none := by simp [runStep, hd]
    rw [h1, h2]
    simp only [Option.toList_none, List.append_nil]
    exact ⟨hrn, hend, hg, hcov, hlast⟩
  · cases hsr : P.state_.single_range_ with
    | cons f rest =>
      cases hL : tr.getLast? with
      | none =>
        simp only [hL] at hlast
        rw [hlast.2.1] at hsr
        cases hsr
      | some I =>
        simp only [hL] at hlast
        obtain ⟨hstart, _, hq1, hq2⟩ := hlast
        obtain ⟨⟨hds, hde, _⟩, pre, hpre, hmem⟩ := drain_spec o.ms false f rest
        have hfI : f.start_ = I.1 ∧ f.end_ = I.2 := by
          refine hq1 f ?_
          rw [hsr]
          exact List.mem_cons_self _ _
        have hnext : next o P =
            ({ P with
                state_ := { P.state_ with single_range_ := (drain o.ms false f rest).2.2 },
                current_ := some (drain o.ms false f rest).1 },
              true, (drain o.ms false f rest).2.1) := by
          simp [next, hd, hsr]
        have hIb : I.1 ≤ I.2 ∧ I.2 < n :=
          hg.1 I (List.mem_of_mem_getLast? hL)
        have h1 : (runStep P (Op.callNext o)).1 = (next o P).1 := by
          simp [runStep, hd]
        have h2 : (runStep P (Op.callNext o)).2 = some (I.1, I.2) := by
          simp only [runStep, if_neg hd, hnext]
          simp [hds, hde, hfI.1, hfI.2]
        rw [h1, h2]
        simp only [Option.toList_some]
        rw [hnext]
        refine InvFull_emit n tr _ (I.1, I.2) hrn hend hg hIb ?_ hstart ?_ ?_ ?_ ?_
        · rw [hL]
          exact Or.inl rfl
        · intro x hx
          exact covers_append_left (hcov x hx) _
        · exact ⟨(drain o.ms false f rest).1, rfl, hds.trans hfI.1, hde.trans hfI.2⟩
        · intro it hit
          rw [hpre] at hit
          rcases List.mem_append.mp hit with h | h
          · have := hmem it h
            exact ⟨this.1.trans hfI.1, this.2.trans hfI.2⟩
          · refine hq1 it ?_
            rw [hsr]
            exact List.mem_cons_of_mem _ h
        · exact hq2
    | nil =>
      cases hmr : P.state_.multi_range_ with
      | cons f rest =>
        cases hL : tr.getLast? with
        | none =>
          simp only [hL] at hlast
          rw [hlast.2.2.1] at hmr
          cases hmr
        | some I =>
          simp only [hL] at hlast
          obtain ⟨hstart, _, hq1, hq2⟩ := hlast
          obtain ⟨⟨hds, hde, _⟩, pre, hpre, hmem⟩ := drain_spec o.ms true f rest
          have hfI : f.start_ = I.1 ∧ f.end_ = I.2 := by
            refine hq2 f ?_
            rw [hmr]
            exact List.mem_cons_self _ _
          have hnext : next o P =
              ({ P with
                  state_ := { P.state_ with multi_range_ := (drain o.ms true f rest).2.2 },
                  current_ := some (drain o.ms true f rest).1 },
                true, (drain o.ms true f rest).2.1) := by
            simp [next, hd, hsr, hmr]
          have hIb : I.1 ≤ I.2 ∧ I.2 < n :=
            hg.1 I (List.mem_of_mem_getLast? hL)
          have h1 : (runStep P (Op.callNext o)).1 = (next o P).1 := by
            simp [runStep, hd]
          have h2 : (runStep P (Op.callNext o)).2 = some (I.1, I.2) := by
            simp only [runStep, if_neg hd, hnext]
            simp [hds, hde, hfI.1, hfI.2]
          rw [h1, h2]
          simp only [Option.toList_some]
          rw [hnext]
          refine InvFull_emit n tr _ (I.1, I.2) hrn hend hg hIb ?_ hstart ?_ ?_ ?_ ?_
          · rw [hL]
            exact Or.inl rfl
          · intro x hx
            exact covers_append_left (hcov x hx) _
          · exact ⟨(drain o.ms true f rest).1, rfl, hds.trans hfI.1, hde.trans hfI.2⟩
          · intro it hit
            rw [hsr] at hit
            cases hit
          · intro it hit
            rw [hpre] at hit
            rcases List.mem_append.mp hit with h | h
            · have := hmem it h
              exact ⟨this.1.trans hfI.1, this.2.trans hfI.2⟩
            · refine hq2 it ?_
              rw [hmr]
              exact List.mem_cons_of_mem _ h
      | nil =>
        -- fresh-interval path: both queues empty
        have hsle : P.state_.start_ ≤ n - 1 := by
          rw [← hend]
          by_contra hlt
          push_neg at hlt
          exact hd (by simp [done, hsr, hmr, hlt])
        have hstart0 : match tr.getLast? with
            | none => P.state_.start_ = 0
            | some I => P.state_.start_ = I.2 + 1 := by
          cases hL : tr.getLast? with
          | none =>
            simp only [hL] at hlast
            exact hlast.1
          | some I =>
            simp only [hL] at hlast
            exact hlast.1
        cases hfe : findEnd o.fits P.state_.start_ P.state_.end_ with
        | none =>
          obtain ⟨⟨hds, hde, _⟩, pre, hpre, hmem⟩ :=
            drain_spec o.ms false ⟨P.state_.start_, P.state_.start_,
              o.szOf P.state_.start_ P.state_.start_⟩ []
          have hnext : next o P =
              (Partitioner.mk P.range_num
                (PState.mk (P.state_.start_ + 1) P.state_.end_
                  (drain o.ms false ⟨P.state_.start_, P.state_.start_,
                    o.szOf P.state_.start_ P.state_.start_⟩ []).2.2
                  P.state_.multi_range_)
                (some (drain o.ms false ⟨P.state_.start_, P.state_.start_,
                  o.szOf P.state_.start_ P.state_.start_⟩ []).1),
                true,
                (drain o.ms false ⟨P.state_.start_, P.state_.start_,
                  o.szOf P.state_.start_ P.state_.start_⟩ []).2.1) := by
            simp [next, hd, hsr, hmr, hfe]
          have h1 : (runStep P (Op.callNext o)).1 = (next o P).1 := by
            simp [runStep, hd]
          have h2 : (runStep P (Op.callNext o)).2 =
              some (P.state_.start_, P.state_.start_) := by
            simp only [runStep, if_neg hd, hnext]
            simp [hds, hde]
          rw [h1, h2]
          simp only [Option.toList_some]
          rw [hnext]
          refine InvFull_emit n tr _ (P.state_.start_, P.state_.start_) hrn hend hg
            ⟨Nat.le_refl _, by omega⟩ ?_ rfl ?_ ?_ ?_ ?_
          · cases hL : tr.getLast? with
            | none =>
              rw [hL] at hstart0
              exact hstart0
            | some I =>
              rw [hL] at hstart0
              exact Or.inr hstart0
          · intro x hx
            rcases Nat.lt_or_ge x P.state_.start_ with h | h
            · exact covers_append_left (hcov x h) _
            · have hxx : x = P.state_.start_ := by
                simp only at hx
                omega
              exact covers_concat_self (by omega) (by omega)
          · exact ⟨_, rfl, hds, hde⟩
          · intro it hit
            rw [hpre] at hit
            simp only [List.append_nil] at hit
            exact hmem it hit
          · intro it hit
            rw [hmr] at hit
            cases hit
        | some e' =>
          have hse : P.state_.start_ ≤ e' ∧ e' ≤ P.state_.end_ := findEnd_some hfe
          have hcal' := hcal P.state_.start_ e' hse.1
          have he2n : (o.calib P.state_.start_ e').1 ≤ n - 1 := by
            have := hse.2
            rw [hend] at this
            omega
          by_cases hmss : (o.calib P.state_.start_ e').2
          · obtain ⟨⟨hds, hde, _⟩, pre, hpre, hmem⟩ :=
              drain_spec o.ms true ⟨P.state_.start_, (o.calib P.state_.start_ e').1,
                o.szOf P.state_.start_ (o.calib P.state_.start_ e').1⟩ []
            have hnext : next o P =
                (Partitioner.mk P.range_num
                  (PState.mk ((o.calib P.state_.start_ e').1 + 1) P.state_.end_
                    P.state_.single_range_
                    (drain o.ms true ⟨P.state_.start_, (o.calib P.state_.start_ e').1,
                      o.szOf P.state_.start_ (o.calib P.state_.start_ e').1⟩ []).2.2)
                  (some (drain o.ms true
                    ⟨P.state_.start_, (o.calib P.state_.start_ e').1,
                      o.szOf P.state_.start_ (o.calib P.state_.start_ e').1⟩ []).1),
                  true,
                  (drain o.ms true ⟨P.state_.start_, (o.calib P.state_.start_ e').1,
                    o.szOf P.state_.start_ (o.calib P.state_.start_ e').1⟩ []).2.1) := by
              simp [next, hd, hsr, hmr, hfe, hmss]
            have h1 : (runStep P (Op.callNext o)).1 = (next o P).1 := by
              simp [runStep, hd]
            have h2 : (runStep P (Op.callNext o)).2 =
                some (P.state_.start_, (o.calib P.state_.start_ e').1) := by
              simp only [runStep, if_neg hd, hnext]
              simp [hds, hde]
            rw [h1, h2]
            simp only [Option.toList_some]
            rw [hnext]
            refine InvFull_emit n tr _
              (P.state_.start_, (o.calib P.state_.start_ e').1) hrn hend hg
              ⟨hcal'.1, by omega⟩ ?_ rfl ?_ ?_ ?_ ?_
            · cases hL : tr.getLast? with
              | none =>
                rw [hL] at hstart0
                exact hstart0
              | some I =>
                rw [hL] at hstart0
                exact Or.inr hstart0
            · intro x hx
              rcases Nat.lt_or_ge x P.state_.start_ with h | h
              · exact covers_append_left (hcov x h) _
              · simp only at hx
                exact covers_concat_self (by omega) (by omega)
            · exact ⟨_, rfl, hds, hde⟩
            · intro it hit
              rw [hsr] at hit
              cases hit
            · intro it hit
              rw [hpre] at hit
              simp only [List.append_nil] at hit
              exact hmem it hit
          · have hnext : next o P =
                (Partitioner.mk P.range_num
                  (PState.mk ((o.calib P.state_.start_ e').1 + 1) P.state_.end_
                    P.state_.single_range_ P.state_.multi_range_)
                  (some ⟨P.state_.start_, (o.calib P.state_.start_ e').1,
                    o.szOf P.state_.start_ (o.calib P.state_.start_ e').1, false⟩),
                  true, false) := by
              simp [next, hd, hsr, hmr, hfe, hmss]
            have h1 : (runStep P (Op.callNext o)).1 = (next o P).1 := by
              simp [runStep, hd]
            have h2 : (runStep P (Op.callNext o)).2 =
                some (P.state_.start_, (o.calib P.state_.start_ e').1) := by
              simp only [runStep, if_neg hd, hnext]
              simp
            rw [h1, h2]
            simp only [Option.toList_some]
            rw [hnext]
            refine InvFull_emit n tr _
              (P.state_.start_, (o.calib P.state_.start_ e').1) hrn hend hg
              ⟨hcal'.1, by omega⟩ ?_ rfl ?_ ?_ ?_ ?_
            · cases hL : tr.getLast? with
              | none =>
                rw [hL] at hstart0
                exact hstart0
              | some I =>
                rw [hL] at hstart0
                exact Or.inr hstart0
            · intro x hx
              rcases Nat.lt_or_ge x P.state_.start_ with h | h
              · exact covers_append_left (hcov x h) _
              · simp only at hx
                exact covers_concat_self (by omega) (by omega)
            · exact ⟨_, rfl, rfl, rfl⟩
            · intro it hit
              rw [hsr] at hit
              cases hit
            · intro it hit
              rw [hmr] at hit
              cases hit

/-- `split_current` preserves the invariant and emits nothing: the two
halves keep the current partition's originating interval, the left half
becomes current and the right half joins the queue the current partition
came from. -/
theorem split_inv (n : Nat) (P : Partitioner) (tr : List (Nat × Nat))
    (hInv : InvFull n P tr) :
    InvFull n (runStep P Op.callSplitCurrent).1
      (tr ++ ((runStep P Op.callSplitCurrent).2).toList) := by
  obtain ⟨hrn, hend, hg, hcov, hlast⟩ := hInv
  have hshape : (runStep P Op.callSplitCurrent).1 = (split_current P).1 ∧
      (runStep P Op.callSplitCurrent).2 = none := ⟨rfl, rfl⟩
  rw [hshape.1, hshape.2]
  simp only [Option.toList_none, List.append_nil]
  by_cases hd : done P
  · have h1 : (split_current P).1 = P := by simp [split_current, hd]
    rw [h1]
    exact ⟨hrn, hend, hg, hcov, hlast⟩
  · cases hc : P.current_ with
    | none =>
      have h1 : (split_current P).1 = P := by simp [split_current, hd, hc]
      rw [h1]
      exact ⟨hrn, hend, hg, hcov, hlast⟩
    | some c =>
      by_cases h2 : 2 ≤ c.size_
      · cases hL : tr.getLast? with
        | none =>
          simp only [hL] at hlast
          rw [hlast.2.2.2] at hc
          cases hc
        | some I =>
          simp only [hL] at hlast
          obtain ⟨hstart, ⟨c', hc', hcs, hce⟩, hq1, hq2⟩ := hlast
          have hcc : c' = c := by
            rw [hc] at hc'
            exact (Option.some.inj hc').symm
          rw [hcc] at hcs hce
          by_cases h3 : c.split_multi_range_
          · have h1 : (split_current P).1 =
                Partitioner.mk P.range_num
                  (PState.mk P.state_.start_ P.state_.end_ P.state_.single_range_
                    (⟨c.start_, c.end_, c.size_ / 2⟩ :: P.state_.multi_range_))
                  (some { c with size_ := c.size_ - c.size_ / 2 }) := by
              simp [split_current, hd, hc, h2, h3]
            rw [h1]
            refine ⟨hrn, hend, hg, hcov, ?_⟩
            rw [hL]
            refine ⟨hstart, ⟨_, rfl, hcs, hce⟩, hq1, ?_⟩
            intro it hit
            rcases List.mem_cons.mp hit with rfl | h
            · exact ⟨hcs, hce⟩
            · exact hq2 it h
          · have h1 : (split_current P).1 =
                Partitioner.mk P.range_num
                  (PState.mk P.state_.start_ P.state_.end_
                    (⟨c.start_, c.end_, c.size_ / 2⟩ :: P.state_.single_range_)
                    P.state_.multi_range_)
                  (some { c with size_ := c.size_ - c.size_ / 2 }) := by
              simp [split_current, hd, hc, h2, h3]
            rw [h1]
            refine ⟨hrn, hend, hg, hcov, ?_⟩
            rw [hL]
            refine ⟨hstart, ⟨_, rfl, hcs, hce⟩, ?_, hq2⟩
            intro it hit
            rcases List.mem_cons.mp hit with rfl | h
            · exact ⟨hcs, hce⟩
            · exact hq1 it h
      · have h1 : (split_current P).1 = P := by simp [split_current, hd, hc, h2]
        rw [h1]
        exact ⟨hrn, hend, hg, hcov, hlast⟩

/-- Any legal call sequence preserves the invariant. -/
theorem runAux_inv (n : Nat) (hn : 1 ≤ n) :
    ∀ (ops : List Op) (P : Partitioner) (tr : List (Nat × Nat)),
      InvFull n P tr → (∀ op ∈ ops, calibOK op) →
      InvFull n (runAux P tr ops).1 (runAux P tr ops).2 := by
  intro ops
  induction ops with
  | nil =>
    intro P tr h _
    exact h
  | cons op rest ih =>
    intro P tr h hops
    have hstep : runAux P tr (op :: rest) =
        runAux (runStep P op).1 (tr ++ ((runStep P op).2).toList) rest := rfl
    rw [hstep]
    refine ih _ _ ?_ (fun op' h' => hops op' (List.mem_cons_of_mem _ h'))
    cases op with
    | callNext o =>
      exact next_inv n hn o (hops _ (List.mem_cons_self _ _)) P tr h
    | callSplitCurrent =>
      exact split_inv n P tr h

/-- C1 (amended): over every legal call sequence with well-behaved
calibration, the flat intervals `[start_, end_]` of the partitions emitted
by `next` are nonempty sub-intervals of `[0, range_num - 1]` emitted in
non-decreasing flattening order, each consecutive pair being either
identical (both partitions were split off the same originating interval)
or exactly adjacent; every flat index below the state's `start_` — hence,
once the partitioner is done, every index of `[0, range_num - 1]` — is
covered by some emitted interval. -/
theorem c1_partition_intervals (n : Nat) (hn : 1 ≤ n) (ops : List Op)
    (hops : ∀ op ∈ ops, calibOK op) :
    traceGood n (run n ops).2 ∧
    (∀ x, x < (run n ops).1.state_.start_ → covers (run n ops).2 x) ∧
    (done (run n ops).1 = true → ∀ x, x < n → covers (run n ops).2 x) := by
  have h := runAux_inv n hn ops (initPartitioner n) [] (InvFull_init n) hops
  obtain ⟨hrn, hend, hg, hcov, hlast⟩ := h
  have hrun : run n ops = runAux (initPartitioner n) [] ops := rfl
  rw [hrun]
  refine ⟨hg, hcov, ?_⟩
  intro hdone x hx
  have hd : (runAux (initPartitioner n) [] ops).1.state_.end_ <
      (runAux (initPartitioner n) [] ops).1.state_.start_ := by
    have h1 := hdone
    simp only [done, Bool.and_eq_true, decide_eq_true_eq] at h1
    exact h1.1.1
  apply hcov
  rw [hend] at hd
  omega

theorem c1_partition_intervals_witness :
    done (run 2 [Op.callNext ⟨fun _ _ => true, fun _ e => (e, false),
        fun _ _ => 1, fun _ => false⟩]).1 = true ∧
    covers (run 2 [Op.callNext ⟨fun _ _ => true, fun _ e => (e, false),
        fun _ _ => 1, fun _ => false⟩]).2 1 :=
  ⟨by decide,
    (c1_partition_intervals 2 (by decide)
      [Op.callNext ⟨fun _ _ => true, fun _ e => (e, false), fun _ _ => 1, fun _ => false⟩]
      (by
        intro op hop
        rcases List.mem_singleton.mp hop with rfl
        intro s e h
        exact ⟨h, Nat.le_refl e⟩)).2.2 (by decide) 1 (by decide)⟩

/-- C1 (counterexample to the claim as stated): when a single flat range
does not fit the budget it is split spatially, and every partition split
off it is emitted with the same originating interval `[start_, end_]`
(subarray_partitioner.h:84-93: the interval of ranges *of the original
subarray* the partition was constructed from), so the emitted intervals
are not pairwise disjoint. -/
theorem c1_intervals_not_disjoint :
    (run 1 [Op.callNext ⟨fun _ _ => false, fun s _ => (s, false), fun _ _ => 2, fun _ => true⟩,
        Op.callNext ⟨fun _ _ => false, fun s _ => (s, false), fun _ _ => 2, fun _ => true⟩]).2 =
      [(0, 0), (0, 0)] ∧
    ¬ List.Pairwise (fun a b : Nat × Nat => a.2 < b.1 ∨ b.2 < a.1)
      (run 1 [Op.callNext ⟨fun _ _ => false, fun s _ => (s, false), fun _ _ => 2, fun _ => true⟩,
        Op.callNext ⟨fun _ _ => false, fun s _ => (s, false), fun _ _ => 2, fun _ => true⟩]).2 := by
  decide

end TileDBProof
